import Mathlib

/-!
Verification development for the download-progress instrumentation core of
the hf-hub client (`src/api/mod.rs`): a moving-average throughput estimator
(`MovingAvgRate`), a display-width-aware filename truncation performed in
`ProgressBar::init`, and the rendered rate field.

Modelling conventions:
* `std::time::Instant` values are modelled as natural numbers of
  nanoseconds; `Instant` subtraction saturates at zero, modelled by
  truncated `Nat` subtraction.  `Duration::from_millis 20` is `ms20`,
  `Duration::from_secs 1` is `sec1`, `Duration::as_millis` divides by
  `10^6`.
* the sample `VecDeque<(Instant, u64)>` is a `List (Nat × Nat)` whose head
  is the deque front and whose last element is the deque back; `push_back`
  appends, `pop_front` drops the head.
* strings are lists of `Char`; byte positions use `Char.utf8Size`.
-/

namespace HfHub

/-- A retained sample: `(timestamp in ns, cumulative byte position)`. -/
abbrev Sample := Nat × Nat

/-- `Duration::from_millis(20)` in nanoseconds. -/
def ms20 : Nat := 20000000

/-- `Duration::from_secs(1)` in nanoseconds. -/
def sec1 : Nat := 1000000000

namespace MovingAvgRate

/-- The append gate of `MovingAvgRate::tick`:
`self.samples.back().is_none_or(|(prev, _)| (now - *prev) > Duration::from_millis(20))`. -/
def gate (s : List Sample) (now : Nat) : Bool :=
  match s.getLast? with
  | none => true
  | some (prev, _) => decide (ms20 < now - prev)

/-- The eviction loop of `MovingAvgRate::tick`:
`while let Some(first) = self.samples.front() { if now - first.0 > 1s { pop_front } else { break } }`. -/
def trimFront (now : Nat) : List Sample → List Sample
  | [] => []
  | (t, p) :: rest =>
    if sec1 < now - t then trimFront now rest else (t, p) :: rest

/-- `MovingAvgRate::tick`: conditional `push_back((now, state.pos()))`
followed by front eviction. -/
def tick (s : List Sample) (now pos : Nat) : List Sample :=
  trimFront now (if gate s now then s ++ [(now, pos)] else s)

/-- `MovingAvgRate::reset`: `self.samples = Default::default()`. -/
def reset (_s : List Sample) : List Sample := []

/-- Run a sequence of ticks `(now, pos)` starting from the given window. -/
def runFrom (s : List Sample) (tks : List (Nat × Nat)) : List Sample :=
  tks.foldl (fun acc tp => tick acc tp.1 tp.2) s

/-- Run a sequence of ticks from the empty window (a fresh / reset tracker). -/
def runTicks (tks : List (Nat × Nat)) : List Sample :=
  runFrom [] tks

/-- `(*t1 - *t0).as_millis()`: nanosecond difference divided by `10^6`
(`Instant` subtraction saturates at zero). -/
def elapsedMillis (t0 t1 : Nat) : Nat := (t1 - t0) / 1000000

/-- `u64::MAX`. -/
def u64Max : Nat := 2 ^ 64 - 1

/-- The rate expression of `MovingAvgRate::write`:
`((p1 - p0) as f64 * 1000f64 / elapsed_ms as f64) as u64`.
For `elapsedMs = 0` this follows IEEE `f64` semantics of the source: a
positive numerator divided by zero is `+inf`, whose saturating `as u64`
cast is `u64::MAX`; `0.0 / 0.0` is NaN, whose cast is `0`.  For
`elapsedMs ≠ 0` the `f64` quotient is modelled by the exact rational
truncated to a natural number; the claims below depend only on the
definedness and sign of this value, never on `f64` rounding. -/
def rateValue (p0 p1 elapsedMs : Nat) : Nat :=
  if elapsedMs = 0 then (if p1 = p0 then 0 else u64Max)
  else (p1 - p0) * 1000 / elapsedMs

/-- The two output shapes of `MovingAvgRate::write`: a numeric rate, or the
undefined-rate placeholder of the `_` arm. -/
inductive RateOut
  | rate : Nat → RateOut
  | undef : RateOut
deriving DecidableEq

/-- Branch selection of `MovingAvgRate::write`:
`match (front(), back()) { (Some((t0,p0)), Some((t1,p1))) if len > 1 => rate ..., _ => "-" }`. -/
def write (s : List Sample) : RateOut :=
  match s.head?, s.getLast? with
  | some (t0, p0), some (t1, p1) =>
    if 1 < s.length then RateOut.rate (rateValue p0 p1 (elapsedMillis t0 t1))
    else RateOut.undef
  | _, _ => RateOut.undef

/-- Modelled from the spec: the display of the external `indicatif`
crate's `HumanBytes` wrapper (not part of this repository).  The claims
below depend only on the text surrounding this value, so the byte count is
rendered as a plain decimal numeral. -/
def humanBytes (n : Nat) : String := toString n

/-- The text `MovingAvgRate::write` emits: `write!(w, "{}/s", HumanBytes(rate))`
in the numeric arm, `write!(w, "-")` in the `_` arm. -/
def writeStr (s : List Sample) : String :=
  match write s with
  | RateOut.rate r => humanBytes r ++ "/s"
  | RateOut.undef => "-"

end MovingAvgRate

/-! ## Filename truncation (`<ProgressBar as Progress>::init`) -/

namespace ProgressBarInit

/-- Modelled from the spec: the per-character display width used by the
source through the external `unicode-width` crate
(`c.width().unwrap_or(0)`), which is not part of this repository.  Per the
spec's convention: East-Asian wide characters occupy 2 cells, zero-width,
combining and control characters (whose `width()` is `None`, mapped to 0 by
`unwrap_or(0)`) occupy 0, all others occupy 1. -/
def charWidth (c : Char) : Nat :=
  let n := c.toNat
  if n < 0x20 || (0x7F ≤ n && n < 0xA0) then 0
  else if (0x300 ≤ n && n ≤ 0x36F) || (0x200B ≤ n && n ≤ 0x200F) ||
      (0xFE00 ≤ n && n ≤ 0xFE0F) || n = 0xFEFF then 0
  else if (0x1100 ≤ n && n ≤ 0x115F) ||
      (0x2E80 ≤ n && n ≤ 0xA4CF && n ≠ 0x303F) ||
      (0xAC00 ≤ n && n ≤ 0xD7A3) || (0xF900 ≤ n && n ≤ 0xFAFF) ||
      (0xFE30 ≤ n && n ≤ 0xFE4F) || (0xFF00 ≤ n && n ≤ 0xFF60) ||
      (0xFFE0 ≤ n && n ≤ 0xFFE6) || (0x20000 ≤ n && n ≤ 0x2FFFD) ||
      (0x30000 ≤ n && n ≤ 0x3FFFD) then 2
  else 1

/-- `let display_width: usize = filename.chars().map(|c| c.width().unwrap_or(0)).sum();` -/
def displayWidth (cs : List Char) : Nat := (cs.map charWidth).sum

/-- `let maxlength = 30;` -/
def maxlength : Nat := 30

/-- The backward scan of the truncation loop, expressed on the reversed
character list: starting from accumulated width `cur`, keep taking
characters while adding the next one does not push the accumulated width
past `target` (`if current_width + char_width > target_width { break }`). -/
def scanSuffix (target : Nat) : Nat → List Char → List Char
  | _, [] => []
  | cur, c :: rest =>
    if target < cur + charWidth c then []
    else c :: scanSuffix target (cur + charWidth c) rest

/-- The trailing substring `&filename[start_index..]` kept by the loop:
the characters accepted by the backward scan, back in string order. -/
def truncTail (target : Nat) (cs : List Char) : List Char :=
  (scanSuffix target 0 cs.reverse).reverse

/-- The `message` computed by `<ProgressBar as Progress>::init`: the label
itself when its display width fits in `maxlength`, otherwise
`format!("..{}", &filename[start_index..])`. -/
def initMessage (filename : List Char) : List Char :=
  if displayWidth filename ≤ maxlength then filename
  else '.' :: '.' :: truncTail (maxlength - 2) filename

/-- `filename.len()`: the UTF-8 byte length. -/
def utf8Len (cs : List Char) : Nat := (cs.map Char.utf8Size).sum

/-- `filename.char_indices()` starting at byte offset `i`: each character
paired with the byte offset of its first byte. -/
def charIndicesFrom : Nat → List Char → List (Nat × Char)
  | _, [] => []
  | i, c :: rest => (i, c) :: charIndicesFrom (i + c.utf8Size) rest

/-- `filename.char_indices()`. -/
def charIndices (cs : List Char) : List (Nat × Char) :=
  charIndicesFrom 0 cs

/-- The byte offsets at which a character of the string starts, plus the
total byte length: exactly the valid slice boundaries of the string. -/
def boundariesFrom : Nat → List Char → List Nat
  | i, [] => [i]
  | i, c :: rest => i :: boundariesFrom (i + c.utf8Size) rest

/-- The valid UTF-8 slice boundaries of the string. -/
def charBoundaries (cs : List Char) : List Nat :=
  boundariesFrom 0 cs

/-- The byte-index bookkeeping of the truncation loop:
`for (i, c) in filename.char_indices().rev() { ... start_index = i; }`,
carrying `current_width` and `start_index`. -/
def startIndexLoop (target : Nat) : List (Nat × Char) → Nat → Nat → Nat
  | [], _, si => si
  | (i, c) :: rest, cur, si =>
    if target < cur + charWidth c then si
    else startIndexLoop target rest (cur + charWidth c) i

/-- The `start_index` the loop leaves behind, starting from
`let mut start_index = filename.len();`. -/
def startIndex (filename : List Char) : Nat :=
  startIndexLoop (maxlength - 2) (charIndices filename).reverse 0 (utf8Len filename)

end ProgressBarInit

/-! ## Structural lemmas about the estimator window -/

namespace MovingAvgRate

theorem mem_trimFront {x : Sample} :
    ∀ {l : List Sample} {now : Nat}, x ∈ trimFront now l → x ∈ l
  | [], _, h => by simp [trimFront] at h
  | (t, p) :: rest, now, h => by
    by_cases hc : sec1 < now - t
    · simp only [trimFront, if_pos hc] at h
      exact List.mem_cons_of_mem _ (mem_trimFront h)
    · simpa only [trimFront, if_neg hc] using h

theorem trimFront_chain {R : Sample → Sample → Prop} :
    ∀ {l : List Sample} {now : Nat},
      List.Chain' R l → List.Chain' R (trimFront now l)
  | [], _, h => h
  | (t, p) :: rest, now, h => by
    by_cases hc : sec1 < now - t
    · simp only [trimFront, if_pos hc]
      exact trimFront_chain h.tail
    · simpa only [trimFront, if_neg hc] using h

theorem trimFront_head :
    ∀ {l : List Sample} {now : Nat} {f : Sample},
      (trimFront now l).head? = some f → now - f.1 ≤ sec1
  | [], _, _, h => by simp [trimFront] at h
  | (t, p) :: rest, now, f, h => by
    by_cases hc : sec1 < now - t
    · simp only [trimFront, if_pos hc] at h
      exact trimFront_head h
    · simp only [trimFront, if_neg hc, List.head?_cons, Option.some.injEq] at h
      subst h
      omega

theorem trimFront_append_ne_nil {y : Sample} {now : Nat} (hy : now - y.1 ≤ sec1) :
    ∀ l : List Sample, trimFront now (l ++ [y]) ≠ []
  | [] => by
    simp only [List.nil_append, trimFront]
    rw [if_neg (by omega)]
    simp
  | (t, p) :: rest => by
    simp only [List.cons_append, trimFront]
    by_cases hc : sec1 < now - t
    · rw [if_pos hc]
      exact trimFront_append_ne_nil hy rest
    · rw [if_neg hc]
      simp

theorem trimFront_eq_dropWhile (now : Nat) :
    ∀ l : List Sample,
      trimFront now l = l.dropWhile (fun x => decide (sec1 < now - x.1))
  | [] => rfl
  | (t, p) :: rest => by
    by_cases hc : sec1 < now - t <;>
      simp [trimFront, List.dropWhile_cons, hc, trimFront_eq_dropWhile now rest]

theorem chain_rel_of_head {R : Sample → Sample → Prop} (ht : Transitive R) :
    ∀ {x : Sample} {rest : List Sample},
      List.Chain' R (x :: rest) → ∀ y ∈ rest, R x y := by
  intro x rest
  induction rest generalizing x with
  | nil => intro _ y hy; simp at hy
  | cons b rest' ih =>
    intro h y hy
    rw [List.chain'_cons] at h
    rcases List.mem_cons.mp hy with rfl | hy'
    · exact h.1
    · exact ht h.1 (ih h.2 y hy')

/-! ## C1, C3, C4, C5 -/

/-- **C1** — the claim (and the spec's "Guard required") says that a window
of ≥ 2 samples whose first and last timestamps coincide must render as the
undefined placeholder.  The code has no such guard: with two retained
samples at the same instant it takes the numeric arm, the `f64` division by
the zero `elapsed_ms` yields `+inf`, and the `as u64` cast saturates to
`u64::MAX`, so a numeric rate — not the placeholder — is emitted. -/
theorem c1_zero_elapsed_numeric_rate :
    write [(100, 0), (100, 5)] = RateOut.rate u64Max ∧
      writeStr [(100, 0), (100, 5)] ≠ "-" := by
  constructor
  · rfl
  · decide

/-- **C3** — a tick appends `(now, pos)` iff the window is empty or `now`
minus the last retained timestamp exceeds 20 ms; then samples are evicted
from the front exactly while the front is more than 1 s older than `now`
(a `dropWhile`), so no other sample is removed or reordered. -/
theorem c3_tick_append_then_evict (s : List Sample) (now pos : Nat) :
    ∃ s1 : List Sample,
      (s1 = s ++ [(now, pos)] ∨ s1 = s) ∧
      (s1 = s ++ [(now, pos)] ↔
        s = [] ∨ ∃ prev, s.getLast? = some prev ∧ ms20 < now - prev.1) ∧
      tick s now pos = s1.dropWhile (fun x => decide (sec1 < now - x.1)) := by
  by_cases hg : gate s now = true
  · refine ⟨s ++ [(now, pos)], Or.inl rfl, ?_, ?_⟩
    · refine iff_of_true rfl ?_
      cases hl : s.getLast? with
      | none => exact Or.inl (List.getLast?_eq_none_iff.mp hl)
      | some prev =>
        have hgt : ms20 < now - prev.1 := by
          unfold gate at hg
          rw [hl] at hg
          obtain ⟨prevT, prevP⟩ := prev
          exact of_decide_eq_true hg
        exact Or.inr ⟨prev, rfl, hgt⟩
    · unfold tick
      rw [if_pos hg, trimFront_eq_dropWhile]
  · refine ⟨s, Or.inr rfl, ?_, ?_⟩
    · refine iff_of_false ?_ ?_
      · intro heq
        have := congrArg List.length heq
        simp at this
      · rintro (rfl | ⟨prev, hl, hlt⟩)
        · exact hg rfl
        · refine hg ?_
          unfold gate
          rw [hl]
          obtain ⟨prevT, prevP⟩ := prev
          exact decide_eq_true hlt
    · unfold tick
      rw [if_neg hg, trimFront_eq_dropWhile]

/-- **C4** — with fewer than 2 retained samples the render query yields the
undefined placeholder, and immediately after `reset` (which empties the
window) the next render query does too. -/
theorem c4_undef_below_two_samples (s : List Sample) :
    (s.length < 2 → write s = RateOut.undef) ∧
      write (reset s) = RateOut.undef := by
  refine ⟨?_, rfl⟩
  intro h
  match s with
  | [] => rfl
  | [(t, p)] => rfl
  | (a :: b :: rest) => simp at h; omega

/-- **C5** (amended) — when the rate is defined the emitted text is the
rate value followed by `"/s"`; when it is undefined the emitted text is
just the placeholder `"-"`, with no `"/s"` suffix. -/
theorem c5_rate_field_format (s : List Sample) :
    (∀ r, write s = RateOut.rate r → writeStr s = humanBytes r ++ "/s") ∧
      (write s = RateOut.undef → writeStr s = "-") := by
  constructor
  · intro r h
    simp [writeStr, h]
  · intro h
    simp [writeStr, h]

/-- **C5** counterexample to the claim as stated: on an undefined rate the
emitted text is not `"-" ++ "/s"`. -/
theorem c5_placeholder_lacks_suffix : writeStr [] ≠ "-" ++ "/s" := by
  decide

/-! ## Tick sequences and window invariants (C6, C7, C10) -/

/-- The timestamp of the last tick of a sequence, `n0` for the empty one. -/
def lastTimeD : List (Nat × Nat) → Nat → Nat
  | [], n0 => n0
  | t :: rest, _ => lastTimeD rest t.1

/-- The tick timestamps are non-decreasing and start no earlier than `n0`. -/
def chainFrom : Nat → List (Nat × Nat) → Prop
  | _, [] => True
  | n0, t :: rest => n0 ≤ t.1 ∧ chainFrom t.1 rest

/-- The cumulative positions are non-decreasing and start no lower than `p0`. -/
def posChainFrom : Nat → List (Nat × Nat) → Prop
  | _, [] => True
  | p0, t :: rest => p0 ≤ t.2 ∧ posChainFrom t.2 rest

/-- Any two consecutive retained samples are more than 20 ms apart. -/
def gapChain (s : List Sample) : Prop :=
  List.Chain' (fun a b => a.1 + ms20 < b.1) s

theorem tick_time_invariant {s : List Sample} {n0 now pos : Nat}
    (hs : List.Chain' (fun a b : Sample => a.1 ≤ b.1) s)
    (hle : ∀ x ∈ s, x.1 ≤ n0) (hnow : n0 ≤ now) :
    List.Chain' (fun a b : Sample => a.1 ≤ b.1) (tick s now pos) ∧
      (∀ x ∈ tick s now pos, x.1 ≤ now) ∧
      (∀ x ∈ tick s now pos, now - x.1 ≤ sec1) := by
  set s1 := if gate s now then s ++ [(now, pos)] else s with hs1
  have hchain1 : List.Chain' (fun a b : Sample => a.1 ≤ b.1) s1 := by
    rw [hs1]; split
    · rw [List.chain'_append]
      refine ⟨hs, List.chain'_singleton _, ?_⟩
      intro x hx y hy
      simp only [List.head?_cons, Option.mem_def, Option.some.injEq] at hy
      subst hy
      exact le_trans (hle x (List.mem_of_mem_getLast? hx)) hnow
    · exact hs
  have hle1 : ∀ x ∈ s1, x.1 ≤ now := by
    rw [hs1]; split
    · intro x hx
      rcases List.mem_append.mp hx with h | h
      · exact le_trans (hle x h) hnow
      · simp only [List.mem_singleton] at h
        subst h
        exact le_refl now
    · exact fun x hx => le_trans (hle x hx) hnow
  have htick : tick s now pos = trimFront now s1 := rfl
  have htrans : Transitive (fun a b : Sample => a.1 ≤ b.1) :=
    fun _ _ _ hab hbc => le_trans hab hbc
  refine ⟨htick ▸ trimFront_chain hchain1,
    fun x hx => hle1 x (mem_trimFront (htick ▸ hx)), ?_⟩
  intro x hx
  rw [htick] at hx
  cases htr : trimFront now s1 with
  | nil => rw [htr] at hx; simp at hx
  | cons f tl =>
    rw [htr] at hx
    have hf : now - f.1 ≤ sec1 := trimFront_head (l := s1) (by rw [htr]; rfl)
    have hch : List.Chain' (fun a b : Sample => a.1 ≤ b.1) (f :: tl) :=
      htr ▸ trimFront_chain hchain1
    rcases List.mem_cons.mp hx with rfl | hx'
    · exact hf
    · exact le_trans (Nat.sub_le_sub_left (chain_rel_of_head htrans hch x hx') now) hf

theorem runFrom_time_invariant :
    ∀ (tks : List (Nat × Nat)) (s : List Sample) (n0 : Nat),
      List.Chain' (fun a b : Sample => a.1 ≤ b.1) s →
      (∀ x ∈ s, x.1 ≤ n0) → chainFrom n0 tks →
      List.Chain' (fun a b : Sample => a.1 ≤ b.1) (runFrom s tks) ∧
        ∀ x ∈ runFrom s tks, x.1 ≤ lastTimeD tks n0
  | [], _, _, hs, hle, _ => ⟨hs, hle⟩
  | t :: rest, s, n0, hs, hle, hch => by
    have hstep := @tick_time_invariant s n0 t.1 t.2 hs hle hch.1
    exact runFrom_time_invariant rest (tick s t.1 t.2) t.1 hstep.1 hstep.2.1 hch.2

theorem chainFrom_append_last :
    ∀ (tks : List (Nat × Nat)) (n0 : Nat) (y : Nat × Nat),
      chainFrom n0 (tks ++ [y]) → chainFrom n0 tks ∧ lastTimeD tks n0 ≤ y.1
  | [], _, _, h => ⟨trivial, h.1⟩
  | t :: rest, _, y, h =>
    ⟨⟨h.1, (chainFrom_append_last rest t.1 y h.2).1⟩,
      (chainFrom_append_last rest t.1 y h.2).2⟩

/-- **C6** — after any tick sequence with non-decreasing timestamps ends
with a tick at time `now`, every retained sample is at most 1 s older than
`now`; in particular the oldest is, and the span between any two retained
samples is at most 1 s. -/
theorem c6_window_within_one_second (tks : List (Nat × Nat)) (now pos : Nat)
    (h : chainFrom 0 (tks ++ [(now, pos)])) :
    ∀ x ∈ runTicks (tks ++ [(now, pos)]),
      ∀ y ∈ runTicks (tks ++ [(now, pos)]),
        now - x.1 ≤ sec1 ∧ x.1 - y.1 ≤ sec1 := by
  obtain ⟨htks, hlast⟩ := chainFrom_append_last tks 0 (now, pos) h
  have hbase := runFrom_time_invariant tks [] 0 List.chain'_nil (by simp) htks
  have hstep := @tick_time_invariant (runTicks tks) (lastTimeD tks 0) now pos
    hbase.1 hbase.2 hlast
  have hrun : runTicks (tks ++ [(now, pos)]) = tick (runTicks tks) now pos := by
    simp [runTicks, runFrom, List.foldl_append]
  intro x hx y hy
  rw [hrun] at hx hy
  refine ⟨hstep.2.2 x hx, ?_⟩
  exact le_trans (Nat.sub_le_sub_right (hstep.2.1 x hx) y.1) (hstep.2.2 y hy)

/-- Witness for C6 at the concrete tick sequence `[(0, 0)]`. -/
theorem c6_window_within_one_second_witness :
    (0 : Nat) - 0 ≤ sec1 ∧ (0 : Nat) - 0 ≤ sec1 :=
  c6_window_within_one_second [] 0 0 (by simp [chainFrom]) (0, 0) (by decide)
    (0, 0) (by decide)

theorem tick_pos_invariant {s : List Sample} {p0 now pos : Nat}
    (hs : List.Chain' (fun a b : Sample => a.2 ≤ b.2) s)
    (hle : ∀ x ∈ s, x.2 ≤ p0) (hpos : p0 ≤ pos) :
    List.Chain' (fun a b : Sample => a.2 ≤ b.2) (tick s now pos) ∧
      ∀ x ∈ tick s now pos, x.2 ≤ pos := by
  set s1 := if gate s now then s ++ [(now, pos)] else s with hs1
  have hchain1 : List.Chain' (fun a b : Sample => a.2 ≤ b.2) s1 := by
    rw [hs1]; split
    · rw [List.chain'_append]
      refine ⟨hs, List.chain'_singleton _, ?_⟩
      intro x hx y hy
      simp only [List.head?_cons, Option.mem_def, Option.some.injEq] at hy
      subst hy
      exact le_trans (hle x (List.mem_of_mem_getLast? hx)) hpos
    · exact hs
  have hle1 : ∀ x ∈ s1, x.2 ≤ pos := by
    rw [hs1]; split
    · intro x hx
      rcases List.mem_append.mp hx with h | h
      · exact le_trans (hle x h) hpos
      · simp only [List.mem_singleton] at h
        subst h
        exact le_refl pos
    · exact fun x hx => le_trans (hle x hx) hpos
  have htick : tick s now pos = trimFront now s1 := rfl
  exact ⟨htick ▸ trimFront_chain hchain1,
    fun x hx => hle1 x (mem_trimFront (htick ▸ hx))⟩

theorem runFrom_pos_invariant :
    ∀ (tks : List (Nat × Nat)) (s : List Sample) (p0 : Nat),
      List.Chain' (fun a b : Sample => a.2 ≤ b.2) s →
      (∀ x ∈ s, x.2 ≤ p0) → posChainFrom p0 tks →
      List.Chain' (fun a b : Sample => a.2 ≤ b.2) (runFrom s tks)
  | [], _, _, hs, _, _ => hs
  | t :: rest, s, p0, hs, hle, hch => by
    have hstep := @tick_pos_invariant s p0 t.1 t.2 hs hle hch.1
    exact runFrom_pos_invariant rest (tick s t.1 t.2) t.2 hstep.1 hstep.2 hch.2

/-- **C7** — with the caller-enforced precondition that `pos` never
decreases across the tick sequence (timestamps non-decreasing too), the
window's first position never exceeds its last, so the `u64` subtraction
`p1 - p0` in the render query cannot underflow (its mathematical value is
non-negative), and a defined rate is never negative. -/
theorem c7_rate_nonneg (tks : List (Nat × Nat))
    (_ht : chainFrom 0 tks) (hp : posChainFrom 0 tks) (f b : Sample)
    (hf : (runTicks tks).head? = some f)
    (hb : (runTicks tks).getLast? = some b) :
    f.2 ≤ b.2 ∧ 0 ≤ (b.2 : Int) - (f.2 : Int) ∧
      ∀ r, write (runTicks tks) = RateOut.rate r → 0 ≤ (r : Int) := by
  have hchain : List.Chain' (fun a b : Sample => a.2 ≤ b.2) (runTicks tks) :=
    runFrom_pos_invariant tks [] 0 List.chain'_nil (by simp) hp
  have htrans : Transitive (fun a b : Sample => a.2 ≤ b.2) :=
    fun _ _ _ hab hbc => le_trans hab hbc
  have hfb : f.2 ≤ b.2 := by
    cases hrun : runTicks tks with
    | nil => rw [hrun] at hf; simp at hf
    | cons a tl =>
      rw [hrun] at hf hb hchain
      simp only [List.head?_cons, Option.some.injEq] at hf
      subst hf
      rcases List.mem_cons.mp (List.mem_of_mem_getLast? hb) with rfl | hmem
      · exact le_refl _
      · exact chain_rel_of_head htrans hchain b hmem
  refine ⟨hfb, by omega, ?_⟩
  intro r _
  exact Int.natCast_nonneg r

/-- Witness for C7 at the concrete tick sequence `[(0, 0), (30000000, 5)]`. -/
theorem c7_rate_nonneg_witness :
    (0 : Nat) ≤ 5 ∧ (0 : Int) ≤ (5 : Int) - (0 : Int) ∧
      ∀ r, write (runTicks [(0, 0), (30000000, 5)]) = RateOut.rate r →
        0 ≤ (r : Int) :=
  c7_rate_nonneg [(0, 0), (30000000, 5)] (by simp [chainFrom])
    (by simp [posChainFrom]) (0, 0) (30000000, 5) (by decide) (by decide)

theorem tick_gapChain {s : List Sample} {now pos : Nat} (hs : gapChain s) :
    gapChain (tick s now pos) := by
  have hs1 : gapChain (if gate s now then s ++ [(now, pos)] else s) := by
    split
    case isTrue hg =>
      rw [gapChain, List.chain'_append]
      refine ⟨hs, List.chain'_singleton _, ?_⟩
      intro x hx y hy
      simp only [List.head?_cons, Option.mem_def, Option.some.injEq] at hy
      subst hy
      unfold gate at hg
      rw [Option.mem_def.mp hx] at hg
      obtain ⟨xt, xp⟩ := x
      have := of_decide_eq_true hg
      simpa using by omega
    case isFalse => exact hs
  exact trimFront_chain hs1

theorem runFrom_gapChain :
    ∀ (tks : List (Nat × Nat)) (s : List Sample),
      gapChain s → gapChain (runFrom s tks)
  | [], _, hs => hs
  | _ :: rest, _, hs =>
    runFrom_gapChain rest _ (tick_gapChain hs)

/-- **C10** — every tick leaves the window non-empty (the just-appended or
just-checked back sample survives the same tick's trim pass); any two
consecutive retained samples of a window built by ticks are more than
20 ms apart; hence with at least 2 retained samples the first and last
timestamps differ by more than 20 ms and the rate divisor `elapsed_ms` is
at least 20, in particular strictly positive. -/
theorem c10_gap_and_nonempty :
    (∀ (s : List Sample) (now pos : Nat), tick s now pos ≠ []) ∧
      (∀ tks : List (Nat × Nat), gapChain (runTicks tks)) ∧
      ∀ (tks : List (Nat × Nat)) (f b : Sample),
        2 ≤ (runTicks tks).length →
        (runTicks tks).head? = some f →
        (runTicks tks).getLast? = some b →
        f.1 + ms20 < b.1 ∧ 20 ≤ elapsedMillis f.1 b.1 ∧
          0 < elapsedMillis f.1 b.1 := by
  have hms : ms20 < sec1 := by norm_num [ms20, sec1]
  have hne : ∀ (s : List Sample) (now pos : Nat), tick s now pos ≠ [] := by
    intro s now pos
    unfold tick
    by_cases hg : gate s now = true
    · rw [if_pos hg]
      exact trimFront_append_ne_nil (by omega) s
    · rw [if_neg hg]
      have hsne : s ≠ [] := by
        intro hnil
        subst hnil
        exact hg rfl
      have hlast := List.getLast?_eq_getLast s hsne
      have hgap : now - (s.getLast hsne).1 ≤ ms20 := by
        unfold gate at hg
        rw [hlast] at hg
        simp only [decide_eq_true_eq] at hg
        omega
      have hdecomp := List.dropLast_append_getLast hsne
      rw [← hdecomp]
      exact trimFront_append_ne_nil (by omega) s.dropLast
  have hchain : ∀ tks : List (Nat × Nat), gapChain (runTicks tks) :=
    fun tks => runFrom_gapChain tks [] List.chain'_nil
  refine ⟨hne, hchain, ?_⟩
  intro tks f b hlen hf hb
  have htrans : Transitive (fun a b : Sample => a.1 + ms20 < b.1) :=
    fun _ _ _ hab hbc => by omega
  have hgap : f.1 + ms20 < b.1 := by
    have hch := hchain tks
    cases hrun : runTicks tks with
    | nil => rw [hrun] at hlen; simp at hlen
    | cons a tl =>
      rw [hrun] at hf hb hlen hch
      simp only [List.head?_cons, Option.some.injEq] at hf
      subst hf
      cases tl with
      | nil => simp at hlen
      | cons u tl' =>
        rw [List.getLast?_cons_cons] at hb
        exact chain_rel_of_head htrans hch b
          (List.mem_of_mem_getLast? hb)
  refine ⟨hgap, ?_, ?_⟩ <;>
    · have h20 : (20000000 : Nat) < b.1 - f.1 := by
        have : ms20 = 20000000 := rfl
        omega
      unfold elapsedMillis
      omega

end MovingAvgRate

/-! ## Truncation lemmas (C2, C8, C9) -/

namespace ProgressBarInit

theorem displayWidth_reverse (cs : List Char) :
    displayWidth cs.reverse = displayWidth cs := by
  unfold displayWidth
  rw [List.map_reverse, List.sum_reverse]

theorem displayWidth_drop_le (cs : List Char) {i j : Nat} (hij : i ≤ j) :
    displayWidth (cs.drop j) ≤ displayWidth (cs.drop i) := by
  have h1 : cs.drop j = (cs.drop i).drop (j - i) := by
    rw [List.drop_drop]
    congr 1
    omega
  rw [h1]
  unfold displayWidth
  rw [List.map_drop]
  exact List.Sublist.sum_le_sum (List.drop_sublist _ _) fun a _ => Nat.zero_le a

theorem scanSuffix_width_le (target : Nat) :
    ∀ (l : List Char) (cur : Nat), cur ≤ target →
      cur + displayWidth (scanSuffix target cur l) ≤ target
  | [], cur, h => by simpa [scanSuffix, displayWidth] using h
  | c :: rest, cur, h => by
    by_cases hc : target < cur + charWidth c
    · rw [scanSuffix, if_pos hc]
      simpa [displayWidth] using h
    · rw [scanSuffix, if_neg hc]
      have hle : cur + charWidth c ≤ target := by omega
      have ih := scanSuffix_width_le target rest (cur + charWidth c) hle
      simp only [displayWidth, List.map_cons, List.sum_cons] at ih ⊢
      omega

theorem scanSuffix_take (target : Nat) :
    ∀ (l : List Char) (cur : Nat),
      l.take (scanSuffix target cur l).length = scanSuffix target cur l
  | [], _ => by simp [scanSuffix]
  | c :: rest, cur => by
    by_cases hc : target < cur + charWidth c
    · rw [scanSuffix, if_pos hc]
      simp
    · rw [scanSuffix, if_neg hc]
      simp only [List.length_cons, List.take_succ_cons]
      rw [scanSuffix_take target rest (cur + charWidth c)]

theorem scanSuffix_length_le (target : Nat) :
    ∀ (l : List Char) (cur : Nat), (scanSuffix target cur l).length ≤ l.length
  | [], _ => by simp [scanSuffix]
  | c :: rest, cur => by
    by_cases hc : target < cur + charWidth c
    · rw [scanSuffix, if_pos hc]
      simp
    · rw [scanSuffix, if_neg hc]
      simpa using scanSuffix_length_le target rest (cur + charWidth c)

theorem scanSuffix_maximal (target : Nat) :
    ∀ (l : List Char) (cur : Nat),
      (scanSuffix target cur l).length < l.length →
      target < cur + displayWidth (l.take ((scanSuffix target cur l).length + 1))
  | [], cur, h => by simp [scanSuffix] at h
  | c :: rest, cur, h => by
    by_cases hc : target < cur + charWidth c
    · rw [scanSuffix, if_pos hc]
      simpa [displayWidth] using hc
    · rw [scanSuffix, if_neg hc] at h ⊢
      simp only [List.length_cons, Nat.add_lt_add_iff_right] at h
      have ih := scanSuffix_maximal target rest (cur + charWidth c) h
      simp only [List.length_cons, List.take_succ_cons, displayWidth,
        List.map_cons, List.sum_cons] at ih ⊢
      omega

/-- The trailing substring kept by the backward scan is a suffix `fn.drop k`
whose display width fits in `target`, and every strictly longer suffix
exceeds `target`. -/
theorem truncTail_spec (target : Nat) (fn : List Char) :
    ∃ k, truncTail target fn = fn.drop k ∧
      displayWidth (fn.drop k) ≤ target ∧
      ∀ j, j < k → target < displayWidth (fn.drop j) := by
  have hn : (scanSuffix target 0 fn.reverse).length ≤ fn.length := by
    have := scanSuffix_length_le target fn.reverse 0
    simpa using this
  refine ⟨fn.length - (scanSuffix target 0 fn.reverse).length, ?_, ?_, ?_⟩
  case _ =>
    rw [truncTail]
    conv_lhs => rw [← scanSuffix_take target fn.reverse 0]
    rw [List.reverse_take]
    simp [List.reverse_reverse, List.length_reverse]
  case _ =>
    have h1 : truncTail target fn
        = fn.drop (fn.length - (scanSuffix target 0 fn.reverse).length) := by
      rw [truncTail]
      conv_lhs => rw [← scanSuffix_take target fn.reverse 0]
      rw [List.reverse_take]
      simp [List.reverse_reverse, List.length_reverse]
    rw [← h1, truncTail, displayWidth_reverse]
    simpa using scanSuffix_width_le target fn.reverse 0 (Nat.zero_le target)
  case _ =>
    intro j hj
    have hlt : (scanSuffix target 0 fn.reverse).length < fn.reverse.length := by
      rw [List.length_reverse]
      omega
    have hmax := scanSuffix_maximal target fn.reverse 0 hlt
    have h2 : displayWidth (fn.reverse.take
          ((scanSuffix target 0 fn.reverse).length + 1))
        = displayWidth (fn.drop
          (fn.length - ((scanSuffix target 0 fn.reverse).length + 1))) := by
      rw [← displayWidth_reverse (fn.reverse.take _), List.reverse_take]
      simp [List.reverse_reverse, List.length_reverse]
    rw [h2] at hmax
    simp only [Nat.zero_add] at hmax
    refine lt_of_lt_of_le ?_ (displayWidth_drop_le fn
      (show j ≤ fn.length - ((scanSuffix target 0 fn.reverse).length + 1) by omega))
    omega

/-- `initMessage` unfolded. -/
theorem initMessage_eq (fn : List Char) :
    initMessage fn = if displayWidth fn ≤ maxlength then fn
      else '.' :: '.' :: truncTail (maxlength - 2) fn := rfl

/-- **C2** — with maximum display width 30: a label of display width ≤ 30
is left unchanged; otherwise the message is `".."` followed by the maximal
trailing sequence of whole characters of accumulated width ≤ 28.  In
particular a 40-character all-ASCII label keeps its last 28 characters and
an all-wide 20-character label keeps its last 14. -/
theorem c2_truncate_label (fn : List Char) :
    (displayWidth fn ≤ 30 → initMessage fn = fn) ∧
      (30 < displayWidth fn →
        ∃ k, initMessage fn = '.' :: '.' :: fn.drop k ∧
          displayWidth (fn.drop k) ≤ 28 ∧
          ∀ j, j < k → 28 < displayWidth (fn.drop j)) ∧
      initMessage (List.replicate 40 'a') =
        '.' :: '.' :: List.replicate 28 'a' ∧
      initMessage (List.replicate 20 '中') =
        '.' :: '.' :: List.replicate 14 '中' := by
  refine ⟨?_, ?_, by decide, by decide⟩
  · intro h
    have h' : displayWidth fn ≤ maxlength := h
    rw [initMessage_eq, if_pos h']
  · intro h
    obtain ⟨k, h1, h2, h3⟩ := truncTail_spec (maxlength - 2) fn
    refine ⟨k, ?_, h2, h3⟩
    rw [initMessage_eq, if_neg (by simp only [maxlength]; omega), h1]

/-- **C8** — the truncation computed at `init` is idempotent: its output
has display width ≤ 30, so applying it again returns the output
unchanged. -/
theorem c8_truncation_idempotent (fn : List Char) :
    initMessage (initMessage fn) = initMessage fn := by
  by_cases h : displayWidth fn ≤ maxlength
  · have hm : initMessage fn = fn := by rw [initMessage_eq, if_pos h]
    rw [hm, hm]
  · have hm : initMessage fn = '.' :: '.' :: truncTail (maxlength - 2) fn := by
      rw [initMessage_eq, if_neg h]
    have hdot : charWidth '.' = 1 := by decide
    have hsc : displayWidth (truncTail (maxlength - 2) fn) ≤ maxlength - 2 := by
      rw [truncTail, displayWidth_reverse]
      simpa using scanSuffix_width_le (maxlength - 2) fn.reverse 0 (Nat.zero_le _)
    have hw : displayWidth (initMessage fn) ≤ maxlength := by
      rw [hm]
      simp only [displayWidth, List.map_cons, List.sum_cons, hdot] at hsc ⊢
      have h30 : maxlength = 30 := rfl
      omega
    rw [initMessage_eq (initMessage fn), if_pos hw]

theorem utf8Len_mem_boundariesFrom :
    ∀ (cs : List Char) (i : Nat), i + utf8Len cs ∈ boundariesFrom i cs
  | [], i => by simp [boundariesFrom, utf8Len]
  | c :: rest, i => by
    have ih := utf8Len_mem_boundariesFrom rest (i + c.utf8Size)
    rw [boundariesFrom]
    refine List.mem_cons_of_mem _ ?_
    have harith : i + utf8Len (c :: rest) = i + c.utf8Size + utf8Len rest := by
      simp [utf8Len]
      omega
    rw [harith]
    exact ih

theorem charIndicesFrom_fst_mem_boundaries :
    ∀ (cs : List Char) (i : Nat) (p : Nat × Char),
      p ∈ charIndicesFrom i cs → p.1 ∈ boundariesFrom i cs
  | [], _, _, h => by simp [charIndicesFrom] at h
  | c :: rest, i, p, h => by
    rw [charIndicesFrom] at h
    rw [boundariesFrom]
    rcases List.mem_cons.mp h with rfl | h'
    · exact List.mem_cons_self _ _
    · exact List.mem_cons_of_mem _
        (charIndicesFrom_fst_mem_boundaries rest (i + c.utf8Size) p h')

theorem startIndexLoop_mem {B : List Nat} (target : Nat) :
    ∀ (l : List (Nat × Char)) (cur si : Nat), si ∈ B →
      (∀ p ∈ l, p.1 ∈ B) → startIndexLoop target l cur si ∈ B
  | [], _, si, hsi, _ => hsi
  | (i, c) :: rest, cur, si, hsi, hl => by
    rw [startIndexLoop]
    by_cases hc : target < cur + charWidth c
    · rw [if_pos hc]
      exact hsi
    · rw [if_neg hc]
      exact startIndexLoop_mem target rest (cur + charWidth c) i
        (hl (i, c) (List.mem_cons_self _ _))
        fun p hp => hl p (List.mem_cons_of_mem _ hp)

/-- **C9** — for every label, the `start_index` left behind by the backward
scan is a valid character boundary of the UTF-8 string (a byte offset where
a character starts, or the total byte length), so the trailing-substring
slice never splits a multi-byte code point. -/
theorem c9_start_index_is_char_boundary (fn : List Char) :
    startIndex fn ∈ charBoundaries fn := by
  rw [startIndex, charBoundaries]
  refine startIndexLoop_mem _ _ _ _ ?_ ?_
  · simpa using utf8Len_mem_boundariesFrom fn 0
  · intro p hp
    exact charIndicesFrom_fst_mem_boundaries fn 0 p
      ((List.mem_reverse).mp hp)

end ProgressBarInit

end HfHub
